import Mathlib

/-!
A shallow embedding, over the scalar type ℚ, of the linalgrs matrix library:
the `Matrix` record (src/matrix.rs), its determinant via Laplace expansion,
transposition, the `MatrixUtilities` operation set (src/matrix_utilities.rs:
row-echelon form, reduced row-echelon form, Gauss-Jordan elimination,
multiplication, dot product) and the linear-system solver (src/system.rs),
together with theorems checking the specification's claims against these
definitions.

Conventions of the embedding:
* Rust `Vec<Arc<[T]>>` row storage is modelled as `List (List ℚ)`.  The `Arc`
  copy-on-write sharing is a storage optimisation with no observable effect on
  element values, so it is dropped; `Arc::make_mut` followed by an in-place
  element write is modelled as `List.set`, and an `Arc::clone` snapshot of a
  row is modelled by binding the row value before the loop that uses it.
* The generic scalar `T : Number` is instantiated at ℚ, which satisfies every
  bound the code requires (add, sub, mul, div, compound assignment, equality,
  order, `T::default() = 0`, `num::One::one() = 1`).  ℚ division is total with
  `x / 0 = 0`, while Rust panics (integers) or produces non-finite values
  (floats) there; no theorem below depends on a division by zero.
* A Rust indexing expression `v[i]` panics when out of bounds.  Where a claim
  is about values, indexing is modelled by `List.getD` (returning a default
  that the theorem hypotheses make unreachable); where a claim is about the
  absence of panics, the function is additionally modelled in the `Option`
  monad with every index read performed by `getElem?`, so that `none` models
  an out-of-bounds abort.
-/

namespace Linalgrs

/-- The `Matrix<T>` struct of src/matrix.rs at `T = ℚ`: a list of rows plus the
cached `rows` and `cols` counts. -/
structure Matrix where
  mat : List (List ℚ)
  rows : ℕ
  cols : ℕ
deriving DecidableEq

/-- `Default for Matrix` (src/matrix.rs lines 30-42): `mat: vec![]` with zero
rows and columns. -/
def Matrix.default : Matrix :=
  { mat := [], rows := 0, cols := 0 }

/-- The rectangular-shape invariant of the data model: the cached `rows` count
matches the actual number of rows and every row actually has `cols`
elements. -/
def WF (m : Matrix) : Prop :=
  m.mat.length = m.rows ∧ ∀ row ∈ m.mat, row.length = m.cols

instance (m : Matrix) : Decidable (WF m) := by
  unfold WF; infer_instance

/-- `Matrix::shape` (src/matrix.rs lines 75-80) recomputes the row count and
the first row's length from the actual storage; its field-refreshing side
effect does not influence any value computed from the result. -/
def shapeOf (mat : List (List ℚ)) : ℕ × ℕ :=
  (mat.length, if 0 < mat.length then (mat.getD 0 []).length else 0)

/-! ### Determinant (src/matrix.rs lines 102-166) -/

/-- `Matrix::create_laplace_expansion_submatrix` (src/matrix.rs lines
147-166): rows `1..rows`, with the entries whose enumeration index differs
from `exclude_col` kept by a `filter_map`. -/
def create_laplace_expansion_submatrix (mat : List (List ℚ)) (exclude_col : ℕ) :
    List (List ℚ) :=
  (mat.drop 1).map fun row =>
    row.enum.filterMap fun p => if p.1 ≠ exclude_col then some p.2 else none

/-- `Matrix::laplace_expansion_det_helper` (src/matrix.rs lines 119-146).
The `rows = 0` guard returns `T::default() = 0` explicitly: in the source the
column loop simply never runs because `cols = 0` there, leaving
`det = T::default()`; the guard makes the recursion's termination evident. -/
def laplace_expansion_det_helper (mat : List (List ℚ)) : ℚ :=
  if h0 : mat.length = 0 then 0
  else if mat.length = 1 then (mat.getD 0 []).getD 0 0
  else if mat.length = 2 then
    (mat.getD 0 []).getD 0 0 * (mat.getD 1 []).getD 1 0
      - (mat.getD 0 []).getD 1 0 * (mat.getD 1 []).getD 0 0
  else
    (List.range (mat.getD 0 []).length).foldl
      (fun det col =>
        det + (if col % 2 = 0 then (0 : ℚ) + 1 else (0 : ℚ) - 1) *
          (mat.getD 0 []).getD col 0 *
          laplace_expansion_det_helper (create_laplace_expansion_submatrix mat col))
      0
termination_by mat.length
decreasing_by
  simp only [create_laplace_expansion_submatrix, List.length_map, List.length_drop]
  omega

/-- `Matrix::determinant` (src/matrix.rs lines 102-118): recompute the shape,
reject non-square matrices, and dispatch on the row count. -/
def Matrix.determinant (m : Matrix) : Option ℚ :=
  let rows := (shapeOf m.mat).1
  let cols := (shapeOf m.mat).2
  if rows ≠ cols then none
  else
    match rows with
    | 1 => some ((m.mat.getD 0 []).getD 0 0)
    | 2 =>
      some ((m.mat.getD 0 []).getD 0 0 * (m.mat.getD 1 []).getD 1 0
        - (m.mat.getD 0 []).getD 1 0 * (m.mat.getD 1 []).getD 0 0)
    | _ => some (laplace_expansion_det_helper m.mat)

/-- Specification-side sign of a column in the first-row cofactor expansion:
`+1` for even column index, `-1` for odd. -/
def specSign (c : ℕ) : ℚ := if c % 2 = 0 then 1 else -1

/-- Specification-side minor: delete row 0 and column `c`. -/
def specMinor (mat : List (List ℚ)) (c : ℕ) : List (List ℚ) :=
  (mat.drop 1).map fun row => row.eraseIdx c

/-- The determinant as the specification describes it: the sole element for a
1×1 matrix, `a00*a11 - a01*a10` for a 2×2 matrix, and for `n ≥ 3` the
Laplace/cofactor expansion along the first row, the sum over the `n` columns
`c` of `specSign c * a0c * det (minor deleting row 0 and column c)`. -/
def specDet (mat : List (List ℚ)) : ℚ :=
  if h0 : mat.length = 0 then 0
  else if mat.length = 1 then (mat.getD 0 []).getD 0 0
  else if mat.length = 2 then
    (mat.getD 0 []).getD 0 0 * (mat.getD 1 []).getD 1 0
      - (mat.getD 0 []).getD 1 0 * (mat.getD 1 []).getD 0 0
  else
    ((List.range mat.length).map fun c =>
      specSign c * (mat.getD 0 []).getD c 0 * specDet (specMinor mat c)).sum
termination_by mat.length
decreasing_by
  simp only [specMinor, List.length_map, List.length_drop]
  omega

/-! ### Transpose (src/matrix.rs lines 211-230) -/

/-- `Matrix::transpose`: builds a `cols × rows` grid initialised with
`T::default()` and overwrites entry `(j, i)` with `self.mat[i][j]` for every
`i < self.rows`, `j < self.cols`; since each position is assigned exactly
once, the grid is the map below.  Out-of-bounds reads (possible in Rust only
when the cached fields exceed the storage, a panic) appear here as `getD`
defaults, which the shape invariant rules out. -/
def Matrix.transpose (m : Matrix) : Matrix :=
  { mat := (List.range m.cols).map fun j =>
      (List.range m.rows).map fun i => (m.mat.getD i []).getD j 0,
    rows := m.cols,
    cols := m.rows }

/-! ### Row-echelon and reduced row-echelon form
(src/matrix_utilities.rs lines 67-151) -/

/-- The source's floating negative-zero fixup: after each write the code runs
`if row[c] == -T::default() { row[c] = T::default(); }`; composed with the
write it replaces a written value equal to `-0` by `0`. -/
def negZeroFix (x : ℚ) : ℚ := if x = -(0 : ℚ) then (0 : ℚ) else x

/-- One iteration `i` of the pivot loop of `row_echelon_form`
(src/matrix_utilities.rs lines 71-97): read the pivot, normalise row `i` by
it when nonzero (with the negative-zero fixup), then eliminate column `i`
from every row below using a snapshot of the (normalised) pivot row. -/
def rowEchelonStep (rows cols : ℕ) (mat : List (List ℚ)) (i : ℕ) :
    List (List ℚ) :=
  let pivot := (mat.getD i []).getD i 0
  let mat :=
    if pivot ≠ 0 then
      (List.range cols).foldl (fun mat c =>
        let row := mat.getD i []
        mat.set i (row.set c (negZeroFix (row.getD c 0 / pivot)))) mat
    else mat
  let pivot_row := mat.getD i []
  (List.range' (i + 1) (rows - (i + 1))).foldl (fun mat j =>
    let scale_factor := (mat.getD j []).getD i 0
    let row_j := (List.range cols).foldl (fun row c =>
      row.set c (negZeroFix (row.getD c 0 - scale_factor * pivot_row.getD c 0)))
      (mat.getD j [])
    mat.set j row_j) mat

/-- `MatrixUtilities::row_echelon_form` (src/matrix_utilities.rs lines 67-100):
the pivot loop over the cached row count. -/
def MatrixUtilities.row_echelon_form (matrix : Matrix) : Matrix :=
  { matrix with
    mat := (List.range matrix.rows).foldl
      (rowEchelonStep matrix.rows matrix.cols) matrix.mat }

/-- One iteration `i` of the forward pass of `rref` (src/matrix_utilities.rs
lines 114-135): identical to `rowEchelonStep` except that no negative-zero
fixup is applied after the writes. -/
def rrefForwardStep (rows cols : ℕ) (mat : List (List ℚ)) (i : ℕ) :
    List (List ℚ) :=
  let pivot := (mat.getD i []).getD i 0
  let mat :=
    if pivot ≠ 0 then
      (List.range cols).foldl (fun mat c =>
        let row := mat.getD i []
        mat.set i (row.set c (row.getD c 0 / pivot))) mat
    else mat
  let pivot_row := mat.getD i []
  (List.range' (i + 1) (rows - (i + 1))).foldl (fun mat j =>
    let scale_factor := (mat.getD j []).getD i 0
    let row_j := (List.range cols).foldl (fun row c =>
      row.set c (row.getD c 0 - scale_factor * pivot_row.getD c 0))
      (mat.getD j [])
    mat.set j row_j) mat

/-- The forward pass of `rref`: the first loop of src/matrix_utilities.rs
lines 110-135, run over the cached row count. -/
def rrefForward (matrix : Matrix) : Matrix :=
  { matrix with
    mat := (List.range matrix.rows).foldl
      (rrefForwardStep matrix.rows matrix.cols) matrix.mat }

/-- One iteration `i` of the backward pass of `rref` (src/matrix_utilities.rs
lines 137-148): for `j` from `i - 1` down to `0`, subtract
`factor * pivot_row` from row `j`, where `factor = mat[j][i]` and the pivot
row is the (per-`j` cloned) row `i`. -/
def rrefBackwardStep (cols : ℕ) (mat : List (List ℚ)) (i : ℕ) :
    List (List ℚ) :=
  (List.range i).reverse.foldl (fun mat j =>
    let factor := (mat.getD j []).getD i 0
    let pivot_row_clone := mat.getD i []
    let row_j := (List.range cols).foldl (fun row c =>
      row.set c (row.getD c 0 - factor * pivot_row_clone.getD c 0))
      (mat.getD j [])
    mat.set j row_j) mat

/-- The backward pass of `rref`: the second loop of src/matrix_utilities.rs
lines 137-148, with `i` running from the last row upward. -/
def rrefBackward (matrix : Matrix) : Matrix :=
  { matrix with
    mat := (List.range matrix.rows).reverse.foldl
      (rrefBackwardStep matrix.cols) matrix.mat }

/-- `MatrixUtilities::rref` (src/matrix_utilities.rs lines 110-151): the
forward pass followed by the backward pass, which run sequentially on the
same matrix state in the source. -/
def MatrixUtilities.rref (matrix : Matrix) : Matrix :=
  rrefBackward (rrefForward matrix)

/-- Panic-aware `rowEchelonStep`: the same computation with every index read
checked, `none` modelling an out-of-bounds panic. -/
def rowEchelonStepChecked (rows cols : ℕ) (mat : List (List ℚ)) (i : ℕ) :
    Option (List (List ℚ)) := do
  let rowi ← mat[i]?
  let pivot ← rowi[i]?
  let mat ←
    if pivot ≠ 0 then
      (List.range cols).foldlM (fun (mat : List (List ℚ)) c => do
        let row ← mat[i]?
        let v ← row[c]?
        pure (mat.set i (row.set c (negZeroFix (v / pivot))))) mat
    else pure mat
  let pivot_row ← mat[i]?
  (List.range' (i + 1) (rows - (i + 1))).foldlM (fun (mat : List (List ℚ)) j => do
    let rowj ← mat[j]?
    let scale_factor ← rowj[i]?
    let row_j ← (List.range cols).foldlM (fun (row : List ℚ) c => do
      let v ← row[c]?
      let pv ← pivot_row[c]?
      pure (row.set c (negZeroFix (v - scale_factor * pv)))) rowj
    pure (mat.set j row_j)) mat

/-- Panic-aware `row_echelon_form`. -/
def MatrixUtilities.row_echelon_form_checked (matrix : Matrix) : Option Matrix := do
  let mat ← (List.range matrix.rows).foldlM
    (rowEchelonStepChecked matrix.rows matrix.cols) matrix.mat
  pure { matrix with mat := mat }

/-- Panic-aware forward-pass step of `rref`. -/
def rrefForwardStepChecked (rows cols : ℕ) (mat : List (List ℚ)) (i : ℕ) :
    Option (List (List ℚ)) := do
  let rowi ← mat[i]?
  let pivot ← rowi[i]?
  let mat ←
    if pivot ≠ 0 then
      (List.range cols).foldlM (fun (mat : List (List ℚ)) c => do
        let row ← mat[i]?
        let v ← row[c]?
        pure (mat.set i (row.set c (v / pivot)))) mat
    else pure mat
  let pivot_row ← mat[i]?
  (List.range' (i + 1) (rows - (i + 1))).foldlM (fun (mat : List (List ℚ)) j => do
    let rowj ← mat[j]?
    let scale_factor ← rowj[i]?
    let row_j ← (List.range cols).foldlM (fun (row : List ℚ) c => do
      let v ← row[c]?
      let pv ← pivot_row[c]?
      pure (row.set c (v - scale_factor * pv))) rowj
    pure (mat.set j row_j)) mat

/-- Panic-aware backward-pass step of `rref`. -/
def rrefBackwardStepChecked (cols : ℕ) (mat : List (List ℚ)) (i : ℕ) :
    Option (List (List ℚ)) :=
  (List.range i).reverse.foldlM (fun (mat : List (List ℚ)) j => do
    let rowj0 ← mat[j]?
    let factor ← rowj0[i]?
    let pivot_row_clone ← mat[i]?
    let row_j ← (List.range cols).foldlM (fun (row : List ℚ) c => do
      let v ← row[c]?
      let pv ← pivot_row_clone[c]?
      pure (row.set c (v - factor * pv))) rowj0
    pure (mat.set j row_j)) mat

/-- Panic-aware `rref`. -/
def MatrixUtilities.rref_checked (matrix : Matrix) : Option Matrix := do
  let mat1 ← (List.range matrix.rows).foldlM
    (rrefForwardStepChecked matrix.rows matrix.cols) matrix.mat
  let mat2 ← (List.range matrix.rows).reverse.foldlM
    (rrefBackwardStepChecked matrix.cols) mat1
  pure { matrix with mat := mat2 }

/-- The shape invariant carried through the row-reduction loops: the matrix
state has exactly `rows` rows, each of exactly `cols` entries. -/
def ShapeInv (rows cols : ℕ) (mat : List (List ℚ)) : Prop :=
  mat.length = rows ∧ ∀ row ∈ mat, row.length = cols

/-! ### Gauss-Jordan elimination (src/matrix_utilities.rs lines 166-187) -/

/-- `HashMap::insert` modelled on an association list: replace the value of an
existing key, otherwise add the pair.  Keys here are `u8` character codes. -/
def hashInsert (map : List (ℕ × ℚ)) (k : ℕ) (v : ℚ) : List (ℕ × ℚ) :=
  if map.any fun p => p.1 = k then
    map.map fun p => if p.1 = k then (k, v) else p
  else map ++ [(k, v)]

/-- One iteration of the first row pass of
`MatrixUtilities::gaussian_elimination` (src/matrix_utilities.rs lines
170-178).  The variable key `('a' as u8 + i as u8) as char` is modelled by
its release-mode character code `(97 + i % 256) % 256` (`u8` addition wraps
in release builds).  `matrix.cols - 1` is `usize` subtraction, which like ℕ
subtraction yields 0 at `cols = 0` in release builds. -/
def gaussStep (matrix : Matrix) (pivot_vars : List (ℕ × ℚ)) (i : ℕ) :
    Except String (List (ℕ × ℚ)) :=
  let pivot := (matrix.mat.getD i []).getD i 0
  if pivot ≠ 0 then
    Except.ok (hashInsert pivot_vars ((97 + i % 256) % 256)
      ((matrix.mat.getD i []).getD (matrix.cols - 1) 0))
  else if (matrix.mat.getD i []).getD (matrix.cols - 1) 0 ≠ 0 then
    Except.error "No solution exists for the given matrix."
  else Except.ok pivot_vars

/-- `MatrixUtilities::gaussian_elimination` (src/matrix_utilities.rs lines
166-187): compute the RREF, run the first row pass (an early-return loop,
modelled as a fold in the `Except` monad), then the all-zero-row check.  The
second loop returns the same error for every all-zero row it finds, so it is
equivalently the `any` test below. -/
def MatrixUtilities.gaussian_elimination (matrix : Matrix) :
    Except String (List (ℕ × ℚ)) :=
  let matrix := MatrixUtilities.rref matrix
  let firstPass : Except String (List (ℕ × ℚ)) :=
    (List.range matrix.rows).foldlM (gaussStep matrix) []
  match firstPass with
  | Except.error e => Except.error e
  | Except.ok pivot_vars =>
    if (List.range matrix.rows).any fun i =>
        (matrix.mat.getD i []).all fun x => x = 0 then
      Except.error "Infinitely many solutions exist for the given matrix."
    else Except.ok pivot_vars

/-- Specification-side first pass of Gauss-Jordan elimination, following the
claim's words: walk the rows of the RREF in order; for the row of index `i`,
if its diagonal entry is nonzero record `(97 + i, last-column value)` — the
letter for row 0 being the code 97 for the character a, row 1 the code 98 for
b, and so on — and if the diagonal entry is zero while the last-column entry
is nonzero, fail with the "no solution" error. -/
def gaussSpecFirstPass (cols : ℕ) (i : ℕ) (vars : List (ℕ × ℚ)) :
    List (List ℚ) → Except String (List (ℕ × ℚ))
  | [] => Except.ok vars
  | row :: rest =>
    if row.getD i 0 ≠ 0 then
      gaussSpecFirstPass cols (i + 1)
        (hashInsert vars (97 + i) (row.getD (cols - 1) 0)) rest
    else if row.getD (cols - 1) 0 ≠ 0 then
      Except.error "No solution exists for the given matrix."
    else gaussSpecFirstPass cols (i + 1) vars rest

/-- Gauss-Jordan elimination as the claim describes it: first compute the
RREF, then run the per-row pass, and only afterwards — independently of the
per-row consistency check — fail with the "infinitely many solutions" error
when some row of the RREF is entirely zero. -/
def gaussSpec (matrix : Matrix) : Except String (List (ℕ × ℚ)) :=
  let R := MatrixUtilities.rref matrix
  match gaussSpecFirstPass R.cols 0 [] R.mat with
  | Except.error e => Except.error e
  | Except.ok vars =>
    if R.mat.any fun row => row.all fun x => x = 0 then
      Except.error "Infinitely many solutions exist for the given matrix."
    else Except.ok vars

/-! ### Multiplication and dot product
(src/matrix_utilities.rs lines 290-345) -/

/-- `MatrixUtilities::multiply` (src/matrix_utilities.rs lines 290-314),
panic-aware: after the inner-dimension guard, build the product rows; the
returned struct reads `new_mat[0]` for its column count, which panics — is
`none` here — whenever `new_mat` is empty.  The source's whitespace inside
the error message is normalised. -/
def MatrixUtilities.multiply (a b : Matrix) : Option (Except String Matrix) :=
  if a.cols ≠ b.rows then
    pure (Except.error "The columns of matrix a do not equal the rows of matrix b!")
  else do
    let new_mat ← (List.range a.rows).foldlM (fun (acc : List (List ℚ)) r => do
      let new_row ← (List.range b.cols).foldlM (fun (rowAcc : List ℚ) c => do
        let sum ← (List.range a.cols).foldlM (fun (sum : ℚ) k => do
          let rowA ← a.mat[r]?
          let av ← rowA[k]?
          let rowB ← b.mat[k]?
          let bv ← rowB[c]?
          pure (sum + av * bv)) 0
        pure (rowAcc ++ [sum])) []
      pure (acc ++ [new_row])) []
    let row0 ← new_mat[0]?
    pure (Except.ok { mat := new_mat, rows := new_mat.length, cols := row0.length })

/-- `MatrixUtilities::dot` (src/matrix_utilities.rs lines 329-345),
panic-aware: the two shape guards, then the running sum
`Σ_i a[0][i] * b[i][0]`. -/
def MatrixUtilities.dot (a b : Matrix) : Option (Except String ℚ) :=
  if a.cols ≠ b.rows then
    pure (Except.error "Cannot get the dot product: The number of columns in A must match the number of rows in B.")
  else if ¬ (a.rows = 1 ∧ b.cols = 1) then
    pure (Except.error "Dot product is only valid for a row vector and a column vector.")
  else do
    let sum ← (List.range a.cols).foldlM (fun (sum : ℚ) i => do
      let rowA ← a.mat[0]?
      let av ← rowA[i]?
      let rowB ← b.mat[i]?
      let bv ← rowB[0]?
      pure (sum + av * bv)) 0
    pure (Except.ok sum)

/-- The value of the dot-product sum, read with defaulting indexing. -/
def MatrixUtilities.dotSum (a b : Matrix) : ℚ :=
  (List.range a.cols).foldl
    (fun sum i => sum + (a.mat.getD 0 []).getD i 0 * (b.mat.getD i []).getD 0 0) 0

/-! ### Linear-system solver (src/system.rs) -/

/-- The `System` struct of src/system.rs at `T = ℚ`.  The source's second
field is named `variables`, which is unusable as a field name in Lean 4; it
is never read by the solver. -/
structure System where
  coefficients : Matrix
  vars : List ℚ
  constants : List ℚ

/-- The augmented-matrix construction of `System::gaussian_elimination`
(src/system.rs lines 27-33): for each `i < n`, row `i` becomes the
coefficient row with `constants[i]` pushed at its end, and the column count
is incremented. -/
def buildAugmented (system : System) : Matrix :=
  let n := system.coefficients.rows
  { system.coefficients with
    mat := (List.range n).foldl (fun mat i =>
        mat.set i (system.coefficients.mat.getD i [] ++ [system.constants.getD i 0]))
      system.coefficients.mat,
    cols := system.coefficients.cols + 1 }

/-- The pivot-row scan of `System::gaussian_elimination` (src/system.rs lines
36-41): starting from `max_row = i`, each `k` in `i+1..n` replaces `max_row`
exactly when `augmented.mat[k][i] > augmented.mat[max_row][i]` — a signed
comparison of the raw entries. -/
def selectPivotRow (aug : List (List ℚ)) (i n : ℕ) : ℕ :=
  (List.range' (i + 1) (n - (i + 1))).foldl
    (fun max_row k =>
      if (aug.getD k []).getD i 0 > (aug.getD max_row []).getD i 0 then k
      else max_row) i

/-- `Vec::swap` on the row list.  For in-bounds indices (the only use below)
this exchanges rows `i` and `j`. -/
def listSwap (l : List (List ℚ)) (i j : ℕ) : List (List ℚ) :=
  (l.set i (l.getD j [])).set j (l.getD i [])

/-- The forward-elimination loop of `System::gaussian_elimination`
(src/system.rs lines 35-51). -/
def forwardEliminate (cols n : ℕ) (aug : List (List ℚ)) : List (List ℚ) :=
  (List.range n).foldl (fun aug i =>
    let max_row := selectPivotRow aug i n
    let aug := listSwap aug i max_row
    (List.range' (i + 1) (n - (i + 1))).foldl (fun aug k =>
      let factor := (aug.getD k []).getD i 0 / (aug.getD i []).getD i 0
      (List.range' i (cols - i)).foldl (fun aug j =>
        aug.set k ((aug.getD k []).set j
          ((aug.getD k []).getD j 0 - factor * (aug.getD i []).getD j 0))) aug)
      aug) aug

/-- The back-substitution loop of `System::gaussian_elimination`
(src/system.rs lines 53-60). -/
def backSubstitute (n : ℕ) (aug : List (List ℚ)) : List ℚ :=
  (List.range n).reverse.foldl (fun solution i =>
    let sum0 := (aug.getD i []).getD n 0
    let sum := (List.range' (i + 1) (n - (i + 1))).foldl
      (fun sum j => sum - (aug.getD i []).getD j 0 * solution.getD j 0) sum0
    solution.set i (sum / (aug.getD i []).getD i 0)) (List.replicate n 0)

/-- `System::gaussian_elimination` (src/system.rs lines 19-63).  Note the
precondition check is transcribed as in the source: with
`n = system.coefficients.rows`, it tests `n ≠ system.coefficients.rows`
(always false) and `system.coefficients.cols ≠ 1` — the column count of the
coefficient matrix, not of the constants vector.  The source's multi-line
error-message whitespace is normalised. -/
def System.gaussian_elimination (system : System) : Except String (List ℚ) :=
  let n := system.coefficients.rows
  if n ≠ system.coefficients.rows ∨ system.coefficients.cols ≠ 1 then
    Except.error "The number of rows in this coefficient matrix must equal the number of rows in the constants matrix, and the constants matrix must have exactly one column"
  else
    let augmented := buildAugmented system
    Except.ok (backSubstitute n (forwardEliminate augmented.cols n augmented.mat))

/-! ### Generic list helpers used by the proofs -/

/-- Reading at an in-bounds index with `getD` is reading the element. -/
theorem getD_of_lt {α : Type} (l : List α) (i : ℕ) (d : α) (h : i < l.length) :
    l.getD i d = l[i] := by
  rw [List.getD_eq_getElem?_getD, List.getElem?_eq_getElem h, Option.getD_some]

/-- An in-bounds `getD` read returns a member of the list. -/
theorem getD_mem {α : Type} (l : List α) (i : ℕ) (d : α) (h : i < l.length) :
    l.getD i d ∈ l := by
  rw [getD_of_lt l i d h]; exact List.getElem_mem h

/-- Members of `l.set i x` are members of `l` or the new element `x`. -/
theorem mem_of_mem_set {α : Type} (l : List α) (i : ℕ) (x : α) :
    ∀ a ∈ l.set i x, a ∈ l ∨ a = x := by
  induction l generalizing i with
  | nil => intro a ha; simp [List.set] at ha
  | cons b l ih =>
    intro a ha
    cases i with
    | zero =>
      simp only [List.set_cons_zero] at ha
      rcases List.mem_cons.mp ha with h | h
      · exact Or.inr h
      · exact Or.inl (List.mem_cons_of_mem _ h)
    | succ i =>
      simp only [List.set_cons_succ] at ha
      rcases List.mem_cons.mp ha with h | h
      · exact Or.inl (h ▸ List.mem_cons_self _ _)
      · rcases ih i a h with h' | h'
        · exact Or.inl (List.mem_cons_of_mem _ h')
        · exact Or.inr h'

/-- `getD` after `set` at the same in-bounds index reads the written value. -/
theorem getD_set_self {α : Type} (l : List α) (i : ℕ) (x d : α)
    (h : i < l.length) : (l.set i x).getD i d = x := by
  rw [List.getD_eq_getElem?_getD, List.getElem?_set]
  simp [h]

/-- `getD` after `set` at a different index reads the old value. -/
theorem getD_set_ne {α : Type} (l : List α) (i j : ℕ) (x d : α)
    (h : i ≠ j) : (l.set i x).getD j d = l.getD j d := by
  rw [List.getD_eq_getElem?_getD, List.getElem?_set, List.getD_eq_getElem?_getD]
  simp [h]

/-- Mapping an in-bounds `getD` read over all indices reproduces the list. -/
theorem map_getD_range {α : Type} (l : List α) (d : α) :
    (List.range l.length).map (fun i => l.getD i d) = l := by
  induction l with
  | nil => simp
  | cons x xs ih =>
    rw [List.length_cons, List.range_succ_eq_map, List.map_cons, List.map_map]
    simp only [List.getD_cons_zero]
    refine congrArg (x :: ·) ?_
    calc (List.range xs.length).map ((fun i => (x :: xs).getD i d) ∘ Nat.succ)
        = (List.range xs.length).map (fun i => xs.getD i d) := by
          refine List.map_congr_left fun i _ => ?_
          simp [Function.comp, List.getD_cons_succ]
      _ = xs := ih

/-- `any` after a `map` tests the composite predicate. -/
theorem any_map_general {α β : Type} (l : List α) (f : α → β) (p : β → Bool) :
    (l.map f).any p = l.any (fun a => p (f a)) := by
  induction l with
  | nil => rfl
  | cons x xs ih => simp [ih]

/-- A `Bool.any` over all indices of a list is an `any` over the list. -/
theorem any_range_getD {α : Type} (l : List α) (d : α) (p : α → Bool) :
    (List.range l.length).any (fun i => p (l.getD i d)) = l.any p := by
  conv_rhs => rw [← map_getD_range l d]
  rw [any_map_general]

/-- Folding a pure function in the `Option` monad: if an invariant `P` makes
every monadic step succeed and agree with a pure step while preserving `P`,
then the monadic fold succeeds and agrees with the pure fold. -/
theorem foldlM_option_eq_foldl {α σ : Type} (l : List α) (P : σ → Prop)
    (fM : σ → α → Option σ) (fP : σ → α → σ)
    (H : ∀ s a, P s → a ∈ l → fM s a = some (fP s a) ∧ P (fP s a))
    (init : σ) (hinit : P init) :
    l.foldlM fM init = some (l.foldl fP init) ∧ P (l.foldl fP init) := by
  induction l generalizing init with
  | nil => simpa using hinit
  | cons a l ih =>
    obtain ⟨hstep, hP⟩ := H init a hinit (List.mem_cons_self a l)
    rw [List.foldlM_cons, hstep, List.foldl_cons]
    exact ih (fun s b hs hb => H s b hs (List.mem_cons_of_mem a hb)) (fP init a) hP

/-- A fold preserves an invariant that every step preserves. -/
theorem foldl_inv {α σ : Type} (l : List α) (P : σ → Prop) (f : σ → α → σ)
    (init : σ) (hinit : P init)
    (H : ∀ s a, P s → a ∈ l → P (f s a)) : P (l.foldl f init) :=
  List.foldlRecOn l f init hinit (fun s hs a ha => H s a hs ha)

/-- Two folds agree when their step functions agree on the list members. -/
theorem foldl_ext_mem {α σ : Type} (l : List α) (f g : σ → α → σ) (init : σ)
    (H : ∀ s a, a ∈ l → f s a = g s a) : l.foldl f init = l.foldl g init := by
  induction l generalizing init with
  | nil => rfl
  | cons a l ih =>
    rw [List.foldl_cons, List.foldl_cons, H init a (List.mem_cons_self a l)]
    exact ih _ fun s b hb => H s b (List.mem_cons_of_mem a hb)

/-- Reading a mapped range at an in-bounds index yields the mapped value. -/
theorem getD_map_range {α : Type} (n i : ℕ) (f : ℕ → α) (d : α) (h : i < n) :
    (((List.range n).map f).getD i d) = f i := by
  rw [List.getD_eq_getElem?_getD, List.getElem?_map, List.getElem?_range h,
    Option.map_some', Option.getD_some]

/-- The `enumFrom`/`filter_map` column deletion of the source, for a general
starting index: entries with enumeration index different from `c` are kept,
which deletes position `c - n` when `c` is in range and keeps the whole list
otherwise. -/
theorem enumFrom_filterMap_ne (l : List ℚ) : ∀ (n c : ℕ),
    ((List.enumFrom n l).filterMap fun p => if p.1 ≠ c then some p.2 else none)
      = if c < n then l else l.eraseIdx (c - n) := by
  induction l with
  | nil => intro n c; simp
  | cons x xs ih =>
    intro n c
    rw [List.enumFrom_cons, List.filterMap_cons]
    rcases lt_trichotomy c n with h | h | h
    · have hne : n ≠ c := by omega
      simp only [hne, ne_eq, not_false_eq_true, if_true, ih (n + 1) c,
        if_pos h, if_pos (by omega : c < n + 1)]
    · subst h
      simp only [ne_eq, not_true_eq_false, if_false, ih (c + 1) c,
        if_pos (by omega : c < c + 1), if_neg (lt_irrefl c), Nat.sub_self,
        List.eraseIdx_cons_zero]
    · have hne : n ≠ c := by omega
      simp only [hne, ne_eq, not_false_eq_true, if_true, ih (n + 1) c,
        if_neg (by omega : ¬ c < n + 1), if_neg (by omega : ¬ c < n)]
      have hc : c - n = (c - (n + 1)) + 1 := by omega
      rw [hc, List.eraseIdx_cons_succ]

/-- The source's `enum`/`filter_map` deletion of column `c` equals deleting
index `c`. -/
theorem enum_filterMap_eraseIdx (l : List ℚ) (c : ℕ) :
    (l.enum.filterMap fun p => if p.1 ≠ c then some p.2 else none)
      = l.eraseIdx c := by
  have h := enumFrom_filterMap_ne l 0 c
  simpa [List.enum] using h

/-- On square data, the source's recursive Laplace helper computes the
specification-side cofactor expansion. -/
theorem laplace_eq_specDet (n : ℕ) : ∀ (mat : List (List ℚ)), mat.length = n →
    (∀ row ∈ mat, row.length = n) →
    laplace_expansion_det_helper mat = specDet mat := by
  induction n using Nat.strong_induction_on with
  | _ n ih =>
    intro mat hlen hsq
    rw [laplace_expansion_det_helper.eq_def, specDet.eq_def]
    by_cases h0 : mat.length = 0
    · simp [h0]
    · simp only [dif_neg h0]
      by_cases h1 : mat.length = 1
      · simp [h1]
      · simp only [if_neg h1]
        by_cases h2 : mat.length = 2
        · simp [h2]
        · simp only [if_neg h2]
          have hcols : (mat.getD 0 []).length = n := by
            rw [← hlen]
            exact hlen ▸ hsq _ (getD_mem _ 0 _ (by omega))
          rw [hcols, hlen, List.sum_eq_foldl, List.foldl_map]
          refine foldl_ext_mem _ _ _ _ fun det col hcol => ?_
          have hcoln : col < n := List.mem_range.mp hcol
          have hminor : create_laplace_expansion_submatrix mat col
              = specMinor mat col := by
            unfold create_laplace_expansion_submatrix specMinor
            exact List.map_congr_left fun row _ => enum_filterMap_eraseIdx row col
          have hsign : (if col % 2 = 0 then (0 : ℚ) + 1 else (0 : ℚ) - 1)
              = specSign col := by
            unfold specSign; split <;> norm_num
          have hmlen : (specMinor mat col).length = n - 1 := by
            simp [specMinor, hlen]
          have hmrows : ∀ row ∈ specMinor mat col, row.length = n - 1 := by
            intro row hrow
            obtain ⟨row0, hrow0, rfl⟩ := List.mem_map.mp hrow
            have hmem : row0 ∈ mat := List.drop_subset 1 mat hrow0
            have hr0 : row0.length = n := hsq _ hmem
            rw [List.length_eraseIdx, hr0, if_pos (by omega)]
          have hrec : laplace_expansion_det_helper (specMinor mat col)
              = specDet (specMinor mat col) :=
            ih (n - 1) (by omega) _ hmlen hmrows
          rw [hminor, hsign, hrec]

/-- C4: for every square matrix (satisfying the rectangular invariant),
`determinant` returns the value of the first-row Laplace/cofactor expansion:
the sole element for 1×1, `a00*a11 - a01*a10` for 2×2, and for `n ≥ 3` the
sum over columns `c` of `sign c * a0c * det (minor deleting row 0 and column
c)` with `sign c = +1` for even `c` and `-1` for odd `c`. -/
theorem determinant_is_cofactor_expansion (m : Matrix)
    (hsq : ∀ row ∈ m.mat, row.length = m.mat.length) :
    m.determinant = some (specDet m.mat) := by
  have hcols : (shapeOf m.mat).2 = m.mat.length := by
    unfold shapeOf
    by_cases h : 0 < m.mat.length
    · simp only [if_pos h]
      exact hsq _ (getD_mem _ 0 _ h)
    · simp only [if_neg h]; omega
  have hfst : (shapeOf m.mat).1 = m.mat.length := rfl
  unfold Matrix.determinant
  rw [hfst, hcols, if_neg (by simp)]
  have hlap : laplace_expansion_det_helper m.mat = specDet m.mat :=
    laplace_eq_specDet m.mat.length m.mat rfl hsq
  rcases hn : m.mat.length with _ | n
  · have hnil : m.mat = [] := List.length_eq_zero.mp hn
    rw [hnil] at hlap ⊢
    simpa using hlap
  · rcases n with _ | n
    · rw [specDet.eq_def]
      simp [hn]
    · rcases n with _ | n
      · rw [specDet.eq_def]
        simp [hn]
      · simpa using hlap

/-- Witness for C4 at the specification's anchor input:
`determinant [[1,2],[3,4]] = -2`. -/
theorem determinant_is_cofactor_expansion_witness :
    Matrix.determinant ⟨[[1, 2], [3, 4]], 2, 2⟩ = some (-2) := by
  have h := determinant_is_cofactor_expansion ⟨[[1, 2], [3, 4]], 2, 2⟩ (by decide)
  rw [h, specDet.eq_def]
  norm_num

/-- C5: `determinant` returns `none` exactly off the square shape: it fails
(returns `none`) for every matrix whose recomputed shape has `rows ≠ cols`,
and succeeds (returns a value) for every square matrix. -/
theorem determinant_fails_iff_nonsquare (m : Matrix) :
    ((shapeOf m.mat).1 ≠ (shapeOf m.mat).2 → m.determinant = none) ∧
    ((∀ row ∈ m.mat, row.length = m.mat.length) → m.determinant.isSome = true) := by
  constructor
  · intro hne
    unfold Matrix.determinant
    rw [if_pos hne]
  · intro hsq
    have h := determinant_is_cofactor_expansion m hsq
    rw [h]
    rfl

/-- Witness for C5: a 2×3 matrix fails with `none`; a 1×1 matrix succeeds. -/
theorem determinant_fails_iff_nonsquare_witness :
    Matrix.determinant ⟨[[1, 2, 3], [4, 5, 6]], 2, 3⟩ = none ∧
    (Matrix.determinant ⟨[[5]], 1, 1⟩).isSome = true := by
  constructor
  · exact (determinant_fails_iff_nonsquare ⟨[[1, 2, 3], [4, 5, 6]], 2, 3⟩).1
      (by decide)
  · exact (determinant_fails_iff_nonsquare ⟨[[5]], 1, 1⟩).2 (by decide)

/-- C8: on every matrix satisfying the rectangular-shape invariant, transpose
is an involution: `transpose (transpose m) = m`, with `transpose` producing
`result[j][i] = m[i][j]` and shape `(cols, rows)`. -/
theorem transpose_transpose (m : Matrix) (hWF : WF m) :
    m.transpose.transpose = m := by
  obtain ⟨hlen, hrows⟩ := hWF
  cases m with
  | mk mat rows cols =>
    simp only at hlen hrows
    unfold Matrix.transpose
    simp only [Matrix.mk.injEq, and_true]
    have hinner : ∀ j ∈ List.range rows,
        ((List.range cols).map fun i =>
            ((((List.range cols).map fun jc =>
              (List.range rows).map fun ic => (mat.getD ic []).getD jc 0).getD i []).getD j 0))
        = mat.getD j [] := by
      intro j hj
      have hjr : j < rows := List.mem_range.mp hj
      have hrow : (mat.getD j []).length = cols :=
        hrows _ (getD_mem _ j _ (by omega))
      calc ((List.range cols).map fun i =>
            ((((List.range cols).map fun jc =>
              (List.range rows).map fun ic => (mat.getD ic []).getD jc 0).getD i []).getD j 0))
          = (List.range cols).map fun i => (mat.getD j []).getD i 0 := by
            refine List.map_congr_left fun i hi => ?_
            have hic : i < cols := List.mem_range.mp hi
            rw [getD_map_range cols i _ [] hic, getD_map_range rows j _ 0 hjr]
        _ = mat.getD j [] := by
            rw [← hrow, map_getD_range]
    calc ((List.range rows).map fun j =>
          (List.range cols).map fun i =>
            ((((List.range cols).map fun jc =>
              (List.range rows).map fun ic => (mat.getD ic []).getD jc 0).getD i []).getD j 0))
        = (List.range rows).map fun j => mat.getD j [] := List.map_congr_left hinner
      _ = mat := by rw [← hlen, map_getD_range]

/-- Witness for C8 at a concrete 2×3 matrix. -/
theorem transpose_transpose_witness :
    (Matrix.transpose (Matrix.transpose ⟨[[1, 2, 3], [4, 5, 6]], 2, 3⟩))
      = ⟨[[1, 2, 3], [4, 5, 6]], 2, 3⟩ :=
  transpose_transpose ⟨[[1, 2, 3], [4, 5, 6]], 2, 3⟩ (by decide)

/-- Over ℚ the negative-zero fixup is the identity: `-0 = 0`, and rewriting a
value equal to `0` by `0` changes nothing. -/
theorem negZeroFix_eq (x : ℚ) : negZeroFix x = x := by
  unfold negZeroFix
  rw [neg_zero]
  by_cases h : x = (0 : ℚ)
  · rw [if_pos h, h]
  · rw [if_neg h]

/-- The row-echelon step and the forward step of `rref` coincide: the only
textual difference is the negative-zero fixup, which is the identity. -/
theorem rowEchelonStep_eq_rrefForwardStep :
    rowEchelonStep = rrefForwardStep := by
  funext rows cols mat i
  unfold rowEchelonStep rrefForwardStep
  simp only [negZeroFix_eq]

/-- C6: `rref` is exactly the forward pass of `row_echelon_form` followed by
the backward pass that eliminates entries above each pivot, and the
forward-pass portion of `rref` produces the same matrix as
`row_echelon_form` (over ℚ, where the negative-zero normalisation of the
floating types is invisible to equality). -/
theorem rref_eq_ref_then_backward (m : Matrix) :
    rrefForward m = MatrixUtilities.row_echelon_form m ∧
    MatrixUtilities.rref m = rrefBackward (MatrixUtilities.row_echelon_form m) := by
  have hfwd : rrefForward m = MatrixUtilities.row_echelon_form m := by
    unfold rrefForward MatrixUtilities.row_echelon_form
    rw [rowEchelonStep_eq_rrefForwardStep]
  exact ⟨hfwd, by unfold MatrixUtilities.rref; rw [hfwd]⟩

/-- C1 (code bug): the solver's precondition check diverges from the claimed
(and documented) one.  A 2×2 square system with a matching 2-entry constants
vector is rejected with the shape-mismatch error (its coefficient matrix does
not have exactly one column), while a 1×1 coefficient matrix paired with a
2-entry constants vector sails past the check and returns a solution. -/
theorem system_precondition_check_diverges :
    (System.gaussian_elimination
      ⟨⟨[[1, 0], [0, 1]], 2, 2⟩, [], [1, 2]⟩).toOption = none ∧
    (System.gaussian_elimination
      ⟨⟨[[2]], 1, 1⟩, [], [4, 5]⟩).toOption = some [2] := by
  constructor
  · rfl
  · norm_num [System.gaussian_elimination, buildAugmented, forwardEliminate,
      backSubstitute, selectPivotRow, listSwap, List.range_succ, Except.toOption]

/-- C2 (code bug): at the augmented matrix `[[1, 8], [-5, 3]]` of the system
with coefficient column `[1, -5]`, the pivot scan for index 0 over rows 0..2
selects row 0, even though row 1's column-0 entry has the strictly larger
absolute value — the scan compares raw signed values, not magnitudes. -/
theorem pivot_selection_ignores_absolute_value :
    selectPivotRow (buildAugmented ⟨⟨[[1], [-5]], 2, 1⟩, [], [8, 3]⟩).mat 0 2 = 0 ∧
    |((buildAugmented ⟨⟨[[1], [-5]], 2, 1⟩, [], [8, 3]⟩).mat.getD 1 []).getD 0 0| >
      |((buildAugmented ⟨⟨[[1], [-5]], 2, 1⟩, [], [8, 3]⟩).mat.getD 0 []).getD 0 0| := by
  constructor
  · decide
  · decide

/-- C7 (code bug): two empty (zero-row) matrices pass `multiply`'s
inner-dimension precondition check (`a.cols = 0 = b.rows`), yet the call
aborts — the construction of the result reads `new_mat[0]` from the empty
result row list, an out-of-bounds panic modelled by `none`. -/
theorem multiply_panics_on_zero_row_operands :
    Matrix.default.cols = Matrix.default.rows ∧
    MatrixUtilities.multiply Matrix.default Matrix.default = none := by
  constructor
  · rfl
  · rfl

/-- C9: for a 1×n row matrix and an n×1 column matrix (n ≥ 1, shapes
well-formed), `dot` succeeds with the scalar `Σ_i a[0][i]*b[i][0]`, `multiply`
succeeds without panicking, and the product is the 1×1 matrix holding exactly
that scalar. -/
theorem dot_matches_multiply_entry (a b : Matrix) (hWFa : WF a) (hWFb : WF b)
    (ha : a.rows = 1) (hb : b.cols = 1) (hab : a.cols = b.rows)
    (hn : 1 ≤ a.cols) :
    MatrixUtilities.dot a b = some (Except.ok (MatrixUtilities.dotSum a b)) ∧
    MatrixUtilities.multiply a b =
      some (Except.ok ⟨[[MatrixUtilities.dotSum a b]], 1, 1⟩) := by
  have h0len : 0 < a.mat.length := by rw [hWFa.1, ha]; norm_num
  have hrowA : a.mat[0]? = some (a.mat.getD 0 []) := by
    rw [List.getElem?_eq_getElem h0len, getD_of_lt _ _ _ h0len]
  have hrowAlen : (a.mat.getD 0 []).length = a.cols :=
    hWFa.2 _ (getD_mem _ 0 _ h0len)
  have hsum := foldlM_option_eq_foldl (List.range a.cols) (fun _ => True)
    (fun (sum : ℚ) i => do
      let rowA ← a.mat[0]?
      let av ← rowA[i]?
      let rowB ← b.mat[i]?
      let bv ← rowB[0]?
      pure (sum + av * bv))
    (fun sum i => sum + (a.mat.getD 0 []).getD i 0 * (b.mat.getD i []).getD 0 0)
    (by
      intro s i _ hi
      have hic : i < a.cols := List.mem_range.mp hi
      have h2 : (a.mat.getD 0 [])[i]? = some ((a.mat.getD 0 []).getD i 0) := by
        have : i < (a.mat.getD 0 []).length := by rw [hrowAlen]; exact hic
        rw [List.getElem?_eq_getElem this, getD_of_lt _ _ _ this]
      have hblen : i < b.mat.length := by rw [hWFb.1, ← hab]; exact hic
      have h3 : b.mat[i]? = some (b.mat.getD i []) := by
        rw [List.getElem?_eq_getElem hblen, getD_of_lt _ _ _ hblen]
      have hrowBlen : (b.mat.getD i []).length = b.cols :=
        hWFb.2 _ (getD_mem _ i _ hblen)
      have h4 : (b.mat.getD i [])[0]? = some ((b.mat.getD i []).getD 0 0) := by
        have : 0 < (b.mat.getD i []).length := by rw [hrowBlen, hb]; norm_num
        rw [List.getElem?_eq_getElem this, getD_of_lt _ _ _ this]
      refine ⟨?_, trivial⟩
      simp only [Option.pure_def, Option.bind_eq_bind, hrowA, Option.some_bind,
        h2, h3, h4])
    0 trivial
  have hsum1 : (List.range a.cols).foldlM
      (fun (sum : ℚ) i => do
        let rowA ← a.mat[0]?
        let av ← rowA[i]?
        let rowB ← b.mat[i]?
        let bv ← rowB[0]?
        pure (sum + av * bv)) 0 = some (MatrixUtilities.dotSum a b) := hsum.1
  constructor
  · unfold MatrixUtilities.dot
    rw [if_neg (not_not_intro hab), if_neg (not_not_intro ⟨ha, hb⟩)]
    simp only [Option.pure_def, Option.bind_eq_bind] at hsum1 ⊢
    rw [hsum1]
    simp only [Option.some_bind]
  · unfold MatrixUtilities.multiply
    rw [if_neg (not_not_intro hab), ha, hb]
    rw [show List.range 1 = [0] from rfl]
    simp only [Option.pure_def, Option.bind_eq_bind] at hsum1 ⊢
    simp only [List.foldlM_cons, List.foldlM_nil, Option.pure_def,
      Option.bind_eq_bind, List.nil_append, hsum1, Option.some_bind,
      List.getElem?_cons_zero]
    rfl

/-- Witness for C9 at the row vector `[1 2 3]` and column vector
`[1 2 3]ᵀ`: the dot product is 14 and the product matrix is `[[14]]`. -/
theorem dot_matches_multiply_entry_witness :
    MatrixUtilities.dot ⟨[[1, 2, 3]], 1, 3⟩ ⟨[[1], [2], [3]], 3, 1⟩
      = some (Except.ok 14) ∧
    MatrixUtilities.multiply ⟨[[1, 2, 3]], 1, 3⟩ ⟨[[1], [2], [3]], 3, 1⟩
      = some (Except.ok ⟨[[14]], 1, 1⟩) := by
  have h := dot_matches_multiply_entry ⟨[[1, 2, 3]], 1, 3⟩ ⟨[[1], [2], [3]], 3, 1⟩
    (by decide) (by decide) rfl rfl rfl (by decide)
  have hs : MatrixUtilities.dotSum ⟨[[1, 2, 3]], 1, 3⟩ ⟨[[1], [2], [3]], 3, 1⟩
      = 14 := by
    norm_num [MatrixUtilities.dotSum, List.range_succ]
  rw [hs] at h
  exact h

/-- A row-echelon pivot step does not change the number of rows. -/
theorem rowEchelonStep_length (rows cols : ℕ) (mat : List (List ℚ)) (i : ℕ) :
    (rowEchelonStep rows cols mat i).length = mat.length := by
  simp only [rowEchelonStep]
  refine foldl_inv _ (fun (s : List (List ℚ)) => s.length = mat.length) _ _ ?_ ?_
  · split
    · refine foldl_inv _ (fun (s : List (List ℚ)) => s.length = mat.length) _ _ rfl ?_
      intro s c hs _
      rw [List.length_set]; exact hs
    · rfl
  · intro s j hs _
    rw [List.length_set]; exact hs

/-- A forward `rref` pivot step does not change the number of rows. -/
theorem rrefForwardStep_length (rows cols : ℕ) (mat : List (List ℚ)) (i : ℕ) :
    (rrefForwardStep rows cols mat i).length = mat.length := by
  rw [← rowEchelonStep_eq_rrefForwardStep]
  exact rowEchelonStep_length rows cols mat i

/-- A backward `rref` step does not change the number of rows. -/
theorem rrefBackwardStep_length (cols : ℕ) (mat : List (List ℚ)) (i : ℕ) :
    (rrefBackwardStep cols mat i).length = mat.length := by
  simp only [rrefBackwardStep]
  refine foldl_inv _ (fun (s : List (List ℚ)) => s.length = mat.length) _ _ rfl ?_
  intro s j hs _
  rw [List.length_set]; exact hs

/-- `rref` does not change the number of rows of the storage. -/
theorem rref_mat_length (m : Matrix) :
    (MatrixUtilities.rref m).mat.length = m.mat.length := by
  unfold MatrixUtilities.rref rrefBackward rrefForward
  refine foldl_inv _ (fun (s : List (List ℚ)) => s.length = m.mat.length) _ _ ?_ ?_
  · refine foldl_inv _ (fun (s : List (List ℚ)) => s.length = m.mat.length) _ _ rfl ?_
    intro s i hs _
    rw [rrefForwardStep_length]; exact hs
  · intro s i hs _
    rw [rrefBackwardStep_length]; exact hs

/-- The source's first Gauss-Jordan row pass, started at row `k`, agrees with
the specification-side recursion over the remaining rows, provided the row
count is small enough that the `u8` key arithmetic does not wrap. -/
theorem gauss_firstPass_bridge (R : Matrix) (hlen : R.mat.length = R.rows)
    (hwrap : R.rows ≤ 159) :
    ∀ (d k : ℕ) (vars : List (ℕ × ℚ)), R.rows - k = d →
      (List.range' k (R.rows - k)).foldlM (gaussStep R) vars
        = gaussSpecFirstPass R.cols k vars (R.mat.drop k) := by
  intro d
  induction d with
  | zero =>
    intro k vars hk
    rw [hk, List.drop_eq_nil_of_le (by omega)]
    rfl
  | succ d ih =>
    intro k vars hk
    have hk' : k < R.rows := by omega
    have hklen : k < R.mat.length := by rw [hlen]; exact hk'
    rw [hk, List.range'_succ, List.foldlM_cons,
      List.drop_eq_getElem_cons hklen, ← getD_of_lt R.mat k [] hklen]
    simp only [gaussSpecFirstPass]
    have hkey : (97 + k % 256) % 256 = 97 + k := by omega
    unfold gaussStep
    by_cases hpiv : (R.mat.getD k []).getD k 0 ≠ 0
    · rw [if_pos hpiv, if_pos hpiv, hkey]
      have hbind : ∀ (x : List (ℕ × ℚ)) (f : List (ℕ × ℚ) →
          Except String (List (ℕ × ℚ))),
          (Except.ok x : Except String (List (ℕ × ℚ))) >>= f = f x := fun _ _ => rfl
      rw [hbind]
      have := ih (k + 1) (hashInsert vars (97 + k)
        ((R.mat.getD k []).getD (R.cols - 1) 0)) (by omega)
      rw [show R.rows - (k + 1) = d from by omega] at this
      exact this
    · rw [if_neg hpiv, if_neg hpiv]
      by_cases hlast : (R.mat.getD k []).getD (R.cols - 1) 0 ≠ 0
      · rw [if_pos hlast, if_pos hlast]
        rfl
      · rw [if_neg hlast, if_neg hlast]
        have hbind : ∀ (x : List (ℕ × ℚ)) (f : List (ℕ × ℚ) →
            Except String (List (ℕ × ℚ))),
            (Except.ok x : Except String (List (ℕ × ℚ))) >>= f = f x := fun _ _ => rfl
        rw [hbind]
        have := ih (k + 1) vars (by omega)
        rw [show R.rows - (k + 1) = d from by omega] at this
        exact this

/-- C3: on every well-formed augmented matrix whose row count keeps the `u8`
variable-name arithmetic from wrapping, `gaussian_elimination` behaves exactly
as the claim describes: it computes the RREF, records
`(97 + row index, last-column value)` for every nonzero diagonal entry (row 0
is the character a, row 1 is b, and so on), fails with the "no solution"
error on a zero diagonal with a nonzero last column, and only after that pass
— independently of it — fails with the "infinitely many solutions" error when
some RREF row is entirely zero. -/
theorem gaussian_elimination_matches_claim (m : Matrix) (hWF : WF m)
    (hwrap : m.rows ≤ 159) :
    MatrixUtilities.gaussian_elimination m = gaussSpec m := by
  have hlenR : (MatrixUtilities.rref m).mat.length = (MatrixUtilities.rref m).rows := by
    have h1 : (MatrixUtilities.rref m).mat.length = m.mat.length := rref_mat_length m
    have h2 : (MatrixUtilities.rref m).rows = m.rows := rfl
    rw [h1, h2, hWF.1]
  have hwrapR : (MatrixUtilities.rref m).rows ≤ 159 := hwrap
  simp only [MatrixUtilities.gaussian_elimination, gaussSpec]
  have hfirst : (List.range (MatrixUtilities.rref m).rows).foldlM
      (gaussStep (MatrixUtilities.rref m)) []
      = gaussSpecFirstPass (MatrixUtilities.rref m).cols 0 [] (MatrixUtilities.rref m).mat := by
    rw [List.range_eq_range']
    have h := gauss_firstPass_bridge (MatrixUtilities.rref m) hlenR hwrapR
      (MatrixUtilities.rref m).rows 0 [] (by omega)
    rw [Nat.sub_zero, List.drop_zero] at h
    exact h
  have hany : ((List.range (MatrixUtilities.rref m).rows).any fun i =>
      ((MatrixUtilities.rref m).mat.getD i []).all fun x => x = 0)
      = ((MatrixUtilities.rref m).mat.any fun row => row.all fun x => x = 0) := by
    rw [← hlenR]
    exact any_range_getD (MatrixUtilities.rref m).mat []
      (fun row => row.all fun x => decide (x = 0))
  rw [hfirst, hany]

/-- Witness for C3 at the specification's inconsistent 3×4 system. -/
theorem gaussian_elimination_matches_claim_witness :
    MatrixUtilities.gaussian_elimination
      ⟨[[2, 1, -1, 8], [-3, -1, 2, -11], [2, 1, -1, 7]], 3, 4⟩
    = gaussSpec ⟨[[2, 1, -1, 8], [-3, -1, 2, -11], [2, 1, -1, 7]], 3, 4⟩ :=
  gaussian_elimination_matches_claim
    ⟨[[2, 1, -1, 8], [-3, -1, 2, -11], [2, 1, -1, 7]], 3, 4⟩ (by decide) (by decide)

/-- The checked row-echelon step agrees with the pure one and preserves the
shape invariant, whenever the pivot index is a valid row and there are at
least as many columns as rows. -/
theorem rowEchelonStepChecked_eq (rows cols : ℕ) (mat : List (List ℚ)) (i : ℕ)
    (hi : i < rows) (hrc : rows ≤ cols) (hInv : ShapeInv rows cols mat) :
    rowEchelonStepChecked rows cols mat i = some (rowEchelonStep rows cols mat i)
      ∧ ShapeInv rows cols (rowEchelonStep rows cols mat i) := by
  obtain ⟨hlen, hrows⟩ := hInv
  have hilen : i < mat.length := by rw [hlen]; exact hi
  have hrowi : mat[i]? = some (mat.getD i []) := by
    rw [List.getElem?_eq_getElem hilen, getD_of_lt _ _ _ hilen]
  have hrowilen : (mat.getD i []).length = cols := hrows _ (getD_mem _ _ _ hilen)
  have hic : i < (mat.getD i []).length := by rw [hrowilen]; omega
  have hpiv : (mat.getD i [])[i]? = some ((mat.getD i []).getD i 0) := by
    rw [List.getElem?_eq_getElem hic, getD_of_lt _ _ _ hic]
  have helim : ∀ (pivot_row : List ℚ), pivot_row.length = cols →
      ∀ (mat2 : List (List ℚ)), ShapeInv rows cols mat2 →
      (List.range' (i + 1) (rows - (i + 1))).foldlM
          (fun (mat : List (List ℚ)) j => do
            let rowj ← mat[j]?
            let scale_factor ← rowj[i]?
            let row_j ← (List.range cols).foldlM (fun (row : List ℚ) c => do
              let v ← row[c]?
              let pv ← pivot_row[c]?
              pure (row.set c (negZeroFix (v - scale_factor * pv)))) rowj
            pure (mat.set j row_j)) mat2
        = some ((List.range' (i + 1) (rows - (i + 1))).foldl (fun mat j =>
            mat.set j ((List.range cols).foldl (fun row c =>
              row.set c (negZeroFix
                (row.getD c 0 - (mat.getD j []).getD i 0 * pivot_row.getD c 0)))
              (mat.getD j []))) mat2)
        ∧ ShapeInv rows cols ((List.range' (i + 1) (rows - (i + 1))).foldl
            (fun mat j =>
              mat.set j ((List.range cols).foldl (fun row c =>
                row.set c (negZeroFix
                  (row.getD c 0 - (mat.getD j []).getD i 0 * pivot_row.getD c 0)))
                (mat.getD j []))) mat2) := by
    intro pivot_row hplen mat2 hInv2
    refine foldlM_option_eq_foldl _ (ShapeInv rows cols) _ _ ?_ mat2 hInv2
    intro s j hs hj
    obtain ⟨hslen, hsrows⟩ := hs
    have hjr : j < rows := by
      obtain ⟨t, ht, rfl⟩ := List.mem_range'.mp hj
      omega
    have hjlen : j < s.length := by rw [hslen]; exact hjr
    have hrowj : s[j]? = some (s.getD j []) := by
      rw [List.getElem?_eq_getElem hjlen, getD_of_lt _ _ _ hjlen]
    have hrowjlen : (s.getD j []).length = cols := hsrows _ (getD_mem _ _ _ hjlen)
    have hji : i < (s.getD j []).length := by rw [hrowjlen]; omega
    have hscale : (s.getD j [])[i]? = some ((s.getD j []).getD i 0) := by
      rw [List.getElem?_eq_getElem hji, getD_of_lt _ _ _ hji]
    have hinner := foldlM_option_eq_foldl (List.range cols)
      (fun (r : List ℚ) => r.length = cols)
      (fun (row : List ℚ) c => do
        let v ← row[c]?
        let pv ← pivot_row[c]?
        pure (row.set c (negZeroFix (v - (s.getD j []).getD i 0 * pv))))
      (fun row c => row.set c (negZeroFix
        (row.getD c 0 - (s.getD j []).getD i 0 * pivot_row.getD c 0)))
      (by
        intro r c hr hc
        have hcc : c < cols := List.mem_range.mp hc
        have hrc1 : c < r.length := by rw [hr]; exact hcc
        have h1 : r[c]? = some (r.getD c 0) := by
          rw [List.getElem?_eq_getElem hrc1, getD_of_lt _ _ _ hrc1]
        have hpc : c < pivot_row.length := by rw [hplen]; exact hcc
        have h2 : pivot_row[c]? = some (pivot_row.getD c 0) := by
          rw [List.getElem?_eq_getElem hpc, getD_of_lt _ _ _ hpc]
        refine ⟨?_, ?_⟩
        · simp only [Option.pure_def, Option.bind_eq_bind, h1, Option.some_bind, h2]
        · dsimp only
          rw [List.length_set]; exact hr)
      (s.getD j []) hrowjlen
    simp only [Option.pure_def, Option.bind_eq_bind] at hinner
    refine ⟨?_, ?_, ?_⟩
    · simp only [Option.pure_def, Option.bind_eq_bind, hrowj, Option.some_bind,
        hscale, hinner.1]
    · dsimp only
      rw [List.length_set]; exact hslen
    · dsimp only
      intro row hrow
      rcases mem_of_mem_set _ _ _ _ hrow with h | h
      · exact hsrows _ h
      · rw [h]; exact hinner.2
  have hnorm := foldlM_option_eq_foldl (List.range cols) (ShapeInv rows cols)
    (fun (s : List (List ℚ)) c => do
      let row ← s[i]?
      let v ← row[c]?
      pure (s.set i (row.set c (negZeroFix (v / (mat.getD i []).getD i 0)))))
    (fun s c => s.set i ((s.getD i []).set c
      (negZeroFix ((s.getD i []).getD c 0 / (mat.getD i []).getD i 0))))
    (by
      intro s c hs hc
      obtain ⟨hslen, hsrows⟩ := hs
      have hcc : c < cols := List.mem_range.mp hc
      have hislen : i < s.length := by rw [hslen]; exact hi
      have h1 : s[i]? = some (s.getD i []) := by
        rw [List.getElem?_eq_getElem hislen, getD_of_lt _ _ _ hislen]
      have hsrlen : (s.getD i []).length = cols := hsrows _ (getD_mem _ _ _ hislen)
      have hc1 : c < (s.getD i []).length := by rw [hsrlen]; exact hcc
      have h2 : (s.getD i [])[c]? = some ((s.getD i []).getD c 0) := by
        rw [List.getElem?_eq_getElem hc1, getD_of_lt _ _ _ hc1]
      refine ⟨?_, ?_, ?_⟩
      · simp only [Option.pure_def, Option.bind_eq_bind, h1, Option.some_bind, h2]
      · dsimp only
        rw [List.length_set]; exact hslen
      · dsimp only
        intro row hrow
        rcases mem_of_mem_set _ _ _ _ hrow with h | h
        · exact hsrows _ h
        · rw [h, List.length_set]; exact hsrlen)
    mat ⟨hlen, hrows⟩
  simp only [Option.pure_def, Option.bind_eq_bind] at hnorm helim
  unfold rowEchelonStepChecked rowEchelonStep
  simp only [Option.pure_def, Option.bind_eq_bind, hrowi, Option.some_bind, hpiv]
  by_cases hp : (mat.getD i []).getD i 0 ≠ 0
  · have hInv2 := hnorm.2
    have hlen2 : i < ((List.range cols).foldl (fun s c =>
        s.set i ((s.getD i []).set c
          (negZeroFix ((s.getD i []).getD c 0 / (mat.getD i []).getD i 0))))
        mat).length := by
      rw [hInv2.1]; exact hi
    have hrowi2 : ((List.range cols).foldl (fun s c =>
        s.set i ((s.getD i []).set c
          (negZeroFix ((s.getD i []).getD c 0 / (mat.getD i []).getD i 0))))
        mat)[i]?
        = some (((List.range cols).foldl (fun s c =>
        s.set i ((s.getD i []).set c
          (negZeroFix ((s.getD i []).getD c 0 / (mat.getD i []).getD i 0))))
        mat).getD i []) := by
      rw [List.getElem?_eq_getElem hlen2, getD_of_lt _ _ _ hlen2]
    have hplen2 : (((List.range cols).foldl (fun s c =>
        s.set i ((s.getD i []).set c
          (negZeroFix ((s.getD i []).getD c 0 / (mat.getD i []).getD i 0))))
        mat).getD i []).length = cols :=
      hInv2.2 _ (getD_mem _ i [] hlen2)
    rw [if_pos hp, if_pos hp]
    simp only [hnorm.1, Option.some_bind, hrowi2]
    exact helim _ hplen2 _ hInv2
  · rw [if_neg hp, if_neg hp]
    exact helim _ hrowilen _ ⟨hlen, hrows⟩

/-- The checked backward `rref` step agrees with the pure one and preserves
the shape invariant. -/
theorem rrefBackwardStepChecked_eq (rows cols : ℕ) (mat : List (List ℚ)) (i : ℕ)
    (hi : i < rows) (hrc : rows ≤ cols) (hInv : ShapeInv rows cols mat) :
    rrefBackwardStepChecked cols mat i = some (rrefBackwardStep cols mat i)
      ∧ ShapeInv rows cols (rrefBackwardStep cols mat i) := by
  unfold rrefBackwardStepChecked rrefBackwardStep
  refine foldlM_option_eq_foldl _ (ShapeInv rows cols) _ _ ?_ mat hInv
  intro s j hs hj
  obtain ⟨hslen, hsrows⟩ := hs
  have hjr : j < rows := by
    have := List.mem_range.mp (List.mem_reverse.mp hj)
    omega
  have hjlen : j < s.length := by rw [hslen]; exact hjr
  have hrowj : s[j]? = some (s.getD j []) := by
    rw [List.getElem?_eq_getElem hjlen, getD_of_lt _ _ _ hjlen]
  have hrowjlen : (s.getD j []).length = cols := hsrows _ (getD_mem _ _ _ hjlen)
  have hji : i < (s.getD j []).length := by rw [hrowjlen]; omega
  have hfactor : (s.getD j [])[i]? = some ((s.getD j []).getD i 0) := by
    rw [List.getElem?_eq_getElem hji, getD_of_lt _ _ _ hji]
  have hislen : i < s.length := by rw [hslen]; exact hi
  have hrowi : s[i]? = some (s.getD i []) := by
    rw [List.getElem?_eq_getElem hislen, getD_of_lt _ _ _ hislen]
  have hplen : (s.getD i []).length = cols := hsrows _ (getD_mem _ _ _ hislen)
  have hinner := foldlM_option_eq_foldl (List.range cols)
    (fun (r : List ℚ) => r.length = cols)
    (fun (row : List ℚ) c => do
      let v ← row[c]?
      let pv ← (s.getD i [])[c]?
      pure (row.set c (v - (s.getD j []).getD i 0 * pv)))
    (fun row c => row.set c
      (row.getD c 0 - (s.getD j []).getD i 0 * (s.getD i []).getD c 0))
    (by
      intro r c hr hc
      have hcc : c < cols := List.mem_range.mp hc
      have hrc1 : c < r.length := by rw [hr]; exact hcc
      have h1 : r[c]? = some (r.getD c 0) := by
        rw [List.getElem?_eq_getElem hrc1, getD_of_lt _ _ _ hrc1]
      have hpc : c < (s.getD i []).length := by rw [hplen]; exact hcc
      have h2 : (s.getD i [])[c]? = some ((s.getD i []).getD c 0) := by
        rw [List.getElem?_eq_getElem hpc, getD_of_lt _ _ _ hpc]
      refine ⟨?_, ?_⟩
      · simp only [Option.pure_def, Option.bind_eq_bind, h1, Option.some_bind, h2]
      · dsimp only
        rw [List.length_set]; exact hr)
    (s.getD j []) hrowjlen
  simp only [Option.pure_def, Option.bind_eq_bind] at hinner
  refine ⟨?_, ?_, ?_⟩
  · simp only [Option.pure_def, Option.bind_eq_bind, hrowj, Option.some_bind,
      hfactor, hrowi, hinner.1]
  · dsimp only
    rw [List.length_set]; exact hslen
  · dsimp only
    intro row hrow
    rcases mem_of_mem_set _ _ _ _ hrow with h | h
    · exact hsrows _ h
    · rw [h]; exact hinner.2

/-- The checked row-echelon step and the checked forward `rref` step coincide
(over ℚ the negative-zero fixup is the identity). -/
theorem rowEchelonStepChecked_eq_rrefForwardStepChecked :
    rowEchelonStepChecked = rrefForwardStepChecked := by
  funext rows cols mat i
  unfold rowEchelonStepChecked rrefForwardStepChecked
  simp only [negZeroFix_eq]

/-- C10: on every well-formed matrix with `rows ≤ cols`, `row_echelon_form`
and `rref` perform only in-bounds element accesses (their fully checked
versions succeed and return exactly the unchecked results) and return a
matrix with the same `rows` and `cols` as the input, with the rectangular
invariant preserved. -/
theorem row_reduction_safe_and_shape_preserving (m : Matrix) (hWF : WF m)
    (hrc : m.rows ≤ m.cols) :
    MatrixUtilities.row_echelon_form_checked m
        = some (MatrixUtilities.row_echelon_form m) ∧
    MatrixUtilities.rref_checked m = some (MatrixUtilities.rref m) ∧
    WF (MatrixUtilities.row_echelon_form m) ∧ WF (MatrixUtilities.rref m) ∧
    (MatrixUtilities.row_echelon_form m).rows = m.rows ∧
    (MatrixUtilities.row_echelon_form m).cols = m.cols ∧
    (MatrixUtilities.rref m).rows = m.rows ∧
    (MatrixUtilities.rref m).cols = m.cols := by
  have hInv0 : ShapeInv m.rows m.cols m.mat := ⟨hWF.1, hWF.2⟩
  have houter := foldlM_option_eq_foldl (List.range m.rows)
    (ShapeInv m.rows m.cols)
    (rowEchelonStepChecked m.rows m.cols) (rowEchelonStep m.rows m.cols)
    (fun s a hs ha =>
      rowEchelonStepChecked_eq m.rows m.cols s a (List.mem_range.mp ha) hrc hs)
    m.mat hInv0
  have h1 : MatrixUtilities.row_echelon_form_checked m
      = some (MatrixUtilities.row_echelon_form m) := by
    unfold MatrixUtilities.row_echelon_form_checked MatrixUtilities.row_echelon_form
    simp only [Option.pure_def, Option.bind_eq_bind, houter.1, Option.some_bind]
  have hWFref : WF (MatrixUtilities.row_echelon_form m) :=
    ⟨houter.2.1, houter.2.2⟩
  have houterF := houter
  rw [rowEchelonStepChecked_eq_rrefForwardStepChecked,
    rowEchelonStep_eq_rrefForwardStep] at houterF
  have houterB := foldlM_option_eq_foldl ((List.range m.rows).reverse)
    (ShapeInv m.rows m.cols)
    (rrefBackwardStepChecked m.cols) (rrefBackwardStep m.cols)
    (fun s a hs ha =>
      rrefBackwardStepChecked_eq m.rows m.cols s a
        (List.mem_range.mp (List.mem_reverse.mp ha)) hrc hs)
    ((List.range m.rows).foldl (rrefForwardStep m.rows m.cols) m.mat) houterF.2
  have h2 : MatrixUtilities.rref_checked m = some (MatrixUtilities.rref m) := by
    unfold MatrixUtilities.rref_checked MatrixUtilities.rref rrefBackward rrefForward
    simp only [Option.pure_def, Option.bind_eq_bind, houterF.1, Option.some_bind,
      houterB.1]
  have hWFrref : WF (MatrixUtilities.rref m) := ⟨houterB.2.1, houterB.2.2⟩
  exact ⟨h1, h2, hWFref, hWFrref, rfl, rfl, rfl, rfl⟩

/-- Witness for C10 at a concrete well-formed 2×3 matrix. -/
theorem row_reduction_safe_witness :
    MatrixUtilities.row_echelon_form_checked ⟨[[1, 2, 3], [4, 5, 6]], 2, 3⟩
        = some (MatrixUtilities.row_echelon_form ⟨[[1, 2, 3], [4, 5, 6]], 2, 3⟩) ∧
    MatrixUtilities.rref_checked ⟨[[1, 2, 3], [4, 5, 6]], 2, 3⟩
        = some (MatrixUtilities.rref ⟨[[1, 2, 3], [4, 5, 6]], 2, 3⟩) ∧
    WF (MatrixUtilities.row_echelon_form ⟨[[1, 2, 3], [4, 5, 6]], 2, 3⟩) ∧
    WF (MatrixUtilities.rref ⟨[[1, 2, 3], [4, 5, 6]], 2, 3⟩) ∧
    (MatrixUtilities.row_echelon_form ⟨[[1, 2, 3], [4, 5, 6]], 2, 3⟩).rows = 2 ∧
    (MatrixUtilities.row_echelon_form ⟨[[1, 2, 3], [4, 5, 6]], 2, 3⟩).cols = 3 ∧
    (MatrixUtilities.rref ⟨[[1, 2, 3], [4, 5, 6]], 2, 3⟩).rows = 2 ∧
    (MatrixUtilities.rref ⟨[[1, 2, 3], [4, 5, 6]], 2, 3⟩).cols = 3 :=
  row_reduction_safe_and_shape_preserving ⟨[[1, 2, 3], [4, 5, 6]], 2, 3⟩
    (by decide) (by decide)

end Linalgrs
